import Mathlib

/-!
# Verification of the parallelstl SIMD kernel layer

Shallow embedding of the vector kernels in
`src/include/pstl/_internal/simd_impl.h` (namespace `__icp_algorithm`),
together with proofs of the testable properties stated for them.

Modelling conventions:
* Iterators over a contiguous range become natural-number indices into an
  ambient sequence `f : Nat → α` (a pointer `first + i` is the index
  `first + i`); for the one kernel whose loop dereferences the element
  *before* its range (`simd_calc_mask_2`) the ambient sequence is indexed
  by `Int` so that the read at offset `-1` is representable.
* The kernels embedded here are the portable strategies, i.e. the
  `#else` branches of `__PSTL_EARLYEXIT_PRESENT` (block-doubling scan,
  lane-width-8 block scan with lane-buffer tie-break, monotonic-counter
  compaction); the early-exit pragma variants have the same sequential
  semantics and are not modelled separately.
* Loops that advance by a variable stride carry an explicit fuel
  argument so that every definition is structurally recursive and
  evaluates by kernel reduction; the top-level wrappers supply fuel that
  provably exceeds the number of iterations, so the fuel-exhausted
  branches are unreachable from the wrappers.
* Output-writing kernels return, besides the value the C++ function
  returns, the log of their stores as a list of (position, value) pairs
  in store order.
-/

set_option autoImplicit false

universe u v

variable {α : Type u} {β : Type v}

/-! ## `simd_first` (one stream), lines 92-136

The portable branch scans blocks of 8, recording the predicate per lane
into a lane buffer while OR-reducing into `found`; on `found` it rescans
the 8 lane entries for the first true one; the remainder (< 8 elements)
is a scalar scan.  `scan_first` embeds the C++ pattern
`for (...) { if (q) break; }`, used both for the scalar remainder
(`while (last != first) ...`) and for the lane-buffer tie-break rescan
(`for (i = 0; i < block_size; ++i) if (lane[i]) break;`): it returns the
first index `k ∈ [j, j + rem)` with `q k`, and `j + rem` if none. -/

def scan_first (q : Nat → Bool) : Nat → Nat → Nat
  | 0, j => j
  | rem + 1, j => if q j then j else scan_first q rem (j + 1)

/-- The block loop `while (last - first >= block_size)` of `simd_first`
with `block_size = 8`: per block, the lane buffer holds
`lane[i] = pred(*(first + i))`, `found` is the OR of the lanes, and on
`found` the result is `first + i` for the first true lane.  `rem` is
`last - first`; the lane buffer of the source is local to each block
iteration here, which is faithful because every store of `1` into it is
in the same iteration followed by a `return`.  Fuel decreases once per
block; the wrapper passes fuel `n`, which cannot run out because each
iteration also consumes 8 of `rem`. -/
def first_block_loop (q : Nat → Bool) : Nat → Nat → Nat → Nat
  | 0, rem, j => scan_first q rem j
  | fuel + 1, rem, j =>
    if 8 ≤ rem then
      let lane : Nat → Bool := fun i => q (j + i)
      if (List.range 8).any lane then j + scan_first lane 8 0
      else first_block_loop q fuel (rem - 8) (j + 8)
    else scan_first q rem j

/-- `simd_first(first, n, pred)` (lines 92-136): index of the first
element of `[first, first + n)` satisfying `pred`, or `first + n`
(i.e. `last`) if none. -/
def simd_first (f : Nat → α) (first n : Nat) (pred : α → Bool) : Nat :=
  first_block_loop (fun k => pred (f k)) n n first

/-! ## `simd_first` (two streams), lines 138-181

Identical blocking structure, with both iterators advanced in lockstep
and the binary predicate applied to the zipped elements; the result is
an index into the first stream. -/

def scan_first2 (q : Nat → Nat → Bool) : Nat → Nat → Nat → Nat
  | 0, j1, _ => j1
  | rem + 1, j1, j2 => if q j1 j2 then j1 else scan_first2 q rem (j1 + 1) (j2 + 1)

def first_block_loop2 (q : Nat → Nat → Bool) : Nat → Nat → Nat → Nat → Nat
  | 0, rem, j1, j2 => scan_first2 q rem j1 j2
  | fuel + 1, rem, j1, j2 =>
    if 8 ≤ rem then
      let lane : Nat → Bool := fun i => q (j1 + i) (j2 + i)
      if (List.range 8).any lane then j1 + scan_first lane 8 0
      else first_block_loop2 q fuel (rem - 8) (j1 + 8) (j2 + 8)
    else scan_first2 q rem j1 j2

/-- `simd_first(first1, n, first2, pred)` (lines 138-181): index into
stream 1 of the first position `d < n` with
`pred(first1[d], first2[d])`, or `first1 + n` (i.e. `last1`) if none. -/
def simd_first2 (f1 : Nat → α) (first1 n : Nat) (f2 : Nat → β) (first2 : Nat)
    (pred : α → β → Bool) : Nat :=
  first_block_loop2 (fun k1 k2 => pred (f1 k1) (f2 k2)) n n first1 first2

/-! ## `simd_count`, lines 183-192 -/

def count_loop (q : Nat → Bool) : Nat → Nat → Nat → Nat
  | 0, _, c => c
  | rem + 1, j, c => count_loop q rem (j + 1) (if q j then c + 1 else c)

/-- `simd_count(first, n, pred)` (lines 183-192): additive reduction of
the per-element predicate over `[first, first + n)`. -/
def simd_count (f : Nat → α) (first n : Nat) (pred : α → Bool) : Nat :=
  count_loop (fun k => pred (f k)) n first 0

/-! ## `simd_or`, lines 59-90

Portable branch: adaptive block-doubling scan.  `block_size` starts at
`min(4, n)`; each iteration AND-reduces `!pred` over the current block
(`flag` stays `1` iff no element of the block satisfies `pred`, so
`!flag`, embedded here as `List.any`, is the block's OR); on a hit it
returns `true`; otherwise the window advances and `block_size` doubles
when the remainder is at least twice it (`last - first >= block_size << 1`)
or shrinks to the exact remainder.  Fuel decreases once per iteration;
the wrapper passes `n + 1`, which cannot run out because every iteration
with a nonempty remainder consumes at least one element. -/
def or_block_loop (q : Nat → Bool) : Nat → Nat → Nat → Nat → Bool
  | 0, _, _, _ => false
  | fuel + 1, rem, j, bs =>
    if rem = 0 then false
    else if (List.range bs).any (fun i => q (j + i)) then true
    else
      or_block_loop q fuel (rem - bs) (j + bs)
        (if bs * 2 ≤ rem - bs then bs * 2 else rem - bs)

/-- `simd_or(first, n, pred)` (lines 59-90): `true` iff some element of
`[first, first + n)` satisfies `pred`. -/
def simd_or (f : Nat → α) (first n : Nat) (pred : α → Bool) : Bool :=
  or_block_loop (fun k => pred (f k)) (n + 1) n first (min 4 n)

/-! ## Compaction kernels

The index loops `for (i = 0; i < n; ++i)` of the compaction family are
embedded as structural recursion over the list of range elements
`(List.range n).map f`, processed in index order; `cnt` is the
monotonic output counter, and each store `result[cnt] = first[i]` is
logged as the pair `(cnt, first[i])`. -/

/-- Loop body of `simd_copy_if` (lines 221-234): on `pred(first[i])`,
store at output position `cnt` and increment `cnt`. -/
def cif_loop (pred : α → Bool) : List α → Nat → Nat × List (Nat × α)
  | [], cnt => (cnt, [])
  | x :: xs, cnt =>
    if pred x then
      let r := cif_loop pred xs (cnt + 1)
      (r.1, (cnt, x) :: r.2)
    else cif_loop pred xs cnt

/-- `simd_copy_if(first, n, result, pred)` (lines 221-234).  First
component: the returned output bound `result + cnt`, with the output
base at position 0, i.e. the number of elements written.  Second
component: the store log. -/
def simd_copy_if (f : Nat → α) (n : Nat) (pred : α → Bool) : Nat × List (Nat × α) :=
  cif_loop pred ((List.range n).map f) 0

/-- Loop body of `simd_unique_copy` (lines 194-211), iterating `i` from
1 with `prev = first[i - 1]`: copy `first[i]` iff
`!pred(first[i], first[i - 1])`. -/
def ucl_loop (pred : α → α → Bool) : α → List α → Nat → Nat × List (Nat × α)
  | _, [], cnt => (cnt, [])
  | prev, y :: ys, cnt =>
    if pred y prev then ucl_loop pred y ys cnt
    else
      let r := ucl_loop pred y ys (cnt + 1)
      (r.1, (cnt, y) :: r.2)

/-- `simd_unique_copy(first, n, result, pred)` (lines 194-211): for
`n = 0` nothing is written and `result` itself is returned; otherwise
`result[0] = first[0]` unconditionally, then the loop from `i = 1`.
First component: the returned bound `result + cnt` with output base 0;
second: the store log. -/
def simd_unique_copy (f : Nat → α) (n : Nat) (pred : α → α → Bool) :
    Nat × List (Nat × α) :=
  if n = 0 then (0, [])
  else
    let r := ucl_loop pred (f 0) (((List.range n).map f).drop 1) 1
    (r.1, (0, f 0) :: r.2)

/-- Loop body of `simd_copy_by_mask` (lines 260-271): the element and
its mask entry are consumed at the same index `i`. -/
def cbm_loop : List (α × Bool) → Nat → Nat × List (Nat × α)
  | [], cnt => (cnt, [])
  | (x, m) :: xs, cnt =>
    if m then
      let r := cbm_loop xs (cnt + 1)
      (r.1, (cnt, x) :: r.2)
    else cbm_loop xs cnt

/-- `simd_copy_by_mask(first, n, result, mask)` (lines 260-271).  The
C++ function has return type `void`: the first component is that `Unit`
return value — the internal counter is not handed back to the caller.
Second component: the store log. -/
def simd_copy_by_mask (f : Nat → α) (n : Nat) (mask : Nat → Bool) :
    Unit × List (Nat × α) :=
  ((), (cbm_loop ((List.range n).map (fun i => (f i, mask i))) 0).2)

/-! ## Mask computation kernels -/

/-- Loop body of `simd_calc_mask_1` (lines 248-258):
`mask[i] = pred(first[i])`, count-reducing the true entries.  Result:
(count, log of mask stores). -/
def cm1_loop (pred : α → Bool) : List α → Nat → Nat → Nat × List (Nat × Bool)
  | [], _, c => (c, [])
  | x :: xs, i, c =>
    let m := pred x
    let r := cm1_loop pred xs (i + 1) (if m then c + 1 else c)
    (r.1, (i, m) :: r.2)

/-- `simd_calc_mask_1(first, n, mask, pred)` (lines 248-258). -/
def simd_calc_mask_1 (f : Nat → α) (n : Nat) (pred : α → Bool) :
    Nat × List (Nat × Bool) :=
  cm1_loop pred ((List.range n).map f) 0 0

/-- Loop body of `simd_calc_mask_2` (lines 236-246): for every
`i ∈ [0, n)`, including `i = 0`,
`mask[i] = !pred(first[i], first[i - 1])`, count-reducing the true
entries.  The ambient sequence is `Int`-indexed because at `i = 0` the
loop dereferences `first[-1]`, the element before the range. -/
def cm2_loop (f : Int → α) (b : Int) (pred : α → α → Bool) :
    Nat → Nat → Nat → Nat × List (Nat × Bool)
  | 0, _, c => (c, [])
  | rem + 1, i, c =>
    let m := ! pred (f (b + i)) (f (b + i - 1))
    let r := cm2_loop f b pred rem (i + 1) (if m then c + 1 else c)
    (r.1, (i, m) :: r.2)

/-- `simd_calc_mask_2(first, n, mask, pred)` (lines 236-246), with
`first` embedded as base index `b` into the `Int`-indexed sequence
`f`. -/
def simd_calc_mask_2 (f : Int → α) (b : Int) (n : Nat) (pred : α → α → Bool) :
    Nat × List (Nat × Bool) :=
  cm2_loop f b pred n 0 0

/-- The sequence of indices the loop of `simd_calc_mask_2` dereferences
in the input, in evaluation order: iteration `i` reads `first[i]` and
`first[i - 1]`. -/
def cm2_reads (b : Int) (n : Nat) : List Int :=
  (List.range n).flatMap (fun i => [b + i, b + i - 1])

/-! ## `simd_adjacent_find`, lines 299-351

Portable branch: lane-width-8 blocks; lanes `0..6` hold the in-block
consecutive pairs, lane `7` is set (together with `found`) only by the
block-boundary check `first + block_size < last && pred(*(first + 7),
*(first + 8))`.  With `or_semantic` a found block returns the current
`first`; otherwise the lane buffer is rescanned for the first true
lane.  The remainder runs the scalar loop
`for (; last - first > 1; ++first)`.  As in `simd_first`, the lane
buffer is local to the block iteration here: the source's buffer
persists, but lane `7` can only be left set by an iteration that
returns, and lanes `0..6` are fully overwritten each iteration. -/

def adj_scalar_loop (q : Nat → Bool) : Nat → Nat → Nat
  | 0, j => j
  | 1, j => j + 1
  | rem + 2, j => if q j then j else adj_scalar_loop q (rem + 1) (j + 1)

def adj_block_loop (q : Nat → Bool) (or_sem : Bool) : Nat → Nat → Nat → Nat
  | 0, rem, j => adj_scalar_loop q rem j
  | fuel + 1, rem, j =>
    if 8 ≤ rem then
      let lane : Nat → Bool := fun i =>
        if i < 7 then q (j + i) else decide (8 < rem) && q (j + 7)
      if (List.range 8).any lane then
        if or_sem then j else j + scan_first lane 8 0
      else adj_block_loop q or_sem fuel (rem - 8) (j + 8)
    else adj_scalar_loop q rem j

/-- `simd_adjacent_find(first, last, pred, or_semantic)` (lines
299-351): `last` immediately when `last - first < 2`, else the block
loop over the consecutive-pair predicate. -/
def simd_adjacent_find (f : Nat → α) (first last : Nat) (pred : α → α → Bool)
    (or_semantic : Bool) : Nat :=
  if last - first < 2 then last
  else
    adj_block_loop (fun k => pred (f k) (f (k + 1))) or_semantic
      (last - first) (last - first) first

/-! ## `simd_search`, lines 353-372 -/

/-- `not_pred` wrapper applied by `simd_search` to its equivalence
predicate (`common.h` helper): the negation of a binary predicate. -/
def not_pred (p : α → β → Bool) : α → β → Bool := fun a b => ! p a b

/-- The window test of `simd_search` at candidate start `j`:
`simd_first(s_first, s_last - s_first, first, not_pred(p)) == s_last`,
i.e. no mismatch between the needle and the window. -/
def search_window_match (g : Nat → α) (s_first s_last : Nat) (f : Nat → α)
    (j : Nat) (p : α → α → Bool) : Bool :=
  simd_first2 g s_first (s_last - s_first) f j (not_pred p) == s_last

/-- The candidate loop of `simd_search`
(`for (auto i = n1 - n2; i >= 0; --i, ++first)`): the loop counter `i`
counts down while the candidate `first` advances; `iters = n1 - n2 + 1`
is the number of remaining loop iterations.  On a window match the
result is overwritten with the current candidate, and with `b_first`
the loop breaks there. -/
def search_loop (f g : Nat → α) (s_first s_last : Nat) (p : α → α → Bool)
    (b_first : Bool) : Nat → Nat → Nat → Nat
  | 0, _, result => result
  | iters + 1, j, result =>
    if search_window_match g s_first s_last f j p then
      if b_first then j
      else search_loop f g s_first s_last p b_first iters (j + 1) j
    else search_loop f g s_first s_last p b_first iters (j + 1) result

/-- `simd_search(first, last, s_first, s_last, p, b_first)` (lines
353-372): `last` when the needle is empty (`n2 < 1`) or longer than the
haystack (`n1 < n2`); otherwise the candidate loop starting from
`result = last`. -/
def simd_search (f : Nat → α) (first last : Nat) (g : Nat → α)
    (s_first s_last : Nat) (p : α → α → Bool) (b_first : Bool) : Nat :=
  if s_last - s_first < 1 then last
  else if last - first < s_last - s_first then last
  else
    search_loop f g s_first s_last p b_first
      ((last - first) - (s_last - s_first) + 1) first last

/-- The candidate start positions `simd_search` tests, in the order the
loop tests them (instrumentation of `search_loop`): each iteration
tests the current `first`, and with `b_first` a match ends the loop. -/
def search_loop_trace (f g : Nat → α) (s_first s_last : Nat) (p : α → α → Bool)
    (b_first : Bool) : Nat → Nat → List Nat
  | 0, _ => []
  | iters + 1, j =>
    j :: (if search_window_match g s_first s_last f j p && b_first then []
          else search_loop_trace f g s_first s_last p b_first iters (j + 1))

/-- The tested-candidate trace of `simd_search`; empty in the
degenerate branches that return `last` without entering the loop. -/
def simd_search_trace (f : Nat → α) (first last : Nat) (g : Nat → α)
    (s_first s_last : Nat) (p : α → α → Bool) (b_first : Bool) : List Nat :=
  if s_last - s_first < 1 then []
  else if last - first < s_last - s_first then []
  else
    search_loop_trace f g s_first s_last p b_first
      ((last - first) - (s_last - s_first) + 1) first

/-! ## Characterization of the first-match scans -/

theorem scan_first_spec (q : Nat → Bool) : ∀ rem j,
    j ≤ scan_first q rem j ∧ scan_first q rem j ≤ j + rem ∧
    (scan_first q rem j < j + rem → q (scan_first q rem j) = true) ∧
    (∀ k, j ≤ k → k < scan_first q rem j → q k = false) := by
  intro rem
  induction rem with
  | zero =>
    intro j
    simp only [scan_first]
    exact ⟨Nat.le_refl _, by omega, fun h => absurd h (by omega),
      fun k h1 h2 => absurd h2 (by omega)⟩
  | succ r ih =>
    intro j
    cases hq : q j with
    | true =>
      have hstep : scan_first q (r + 1) j = j := by simp [scan_first, hq]
      rw [hstep]
      exact ⟨Nat.le_refl _, by omega, fun _ => hq, fun k h1 h2 => absurd h1 (by omega)⟩
    | false =>
      have hstep : scan_first q (r + 1) j = scan_first q r (j + 1) := by
        simp [scan_first, hq]
      rw [hstep]
      obtain ⟨h1, h2, h3, h4⟩ := ih (j + 1)
      refine ⟨by omega, by omega, fun h => h3 (by omega), ?_⟩
      intro k hk1 hk2
      rcases Nat.eq_or_lt_of_le hk1 with rfl | hk
      · exact hq
      · exact h4 k hk hk2

theorem first_block_loop_spec (q : Nat → Bool) : ∀ fuel rem j,
    j ≤ first_block_loop q fuel rem j ∧
    first_block_loop q fuel rem j ≤ j + rem ∧
    (first_block_loop q fuel rem j < j + rem →
      q (first_block_loop q fuel rem j) = true) ∧
    (∀ k, j ≤ k → k < first_block_loop q fuel rem j → q k = false) := by
  intro fuel
  induction fuel with
  | zero => intro rem j; simpa [first_block_loop] using scan_first_spec q rem j
  | succ fl ih =>
    intro rem j
    by_cases h8 : 8 ≤ rem
    · by_cases hf : (List.range 8).any (fun i => q (j + i)) = true
      · have hstep : first_block_loop q (fl + 1) rem j =
            j + scan_first (fun i => q (j + i)) 8 0 := by
          simp [first_block_loop, h8, hf]
        rw [hstep]
        obtain ⟨i, hi, hlane⟩ := List.any_eq_true.mp hf
        rw [List.mem_range] at hi
        obtain ⟨g1, g2, g3, g4⟩ := scan_first_spec (fun i => q (j + i)) 8 0
        have hm : scan_first (fun i => q (j + i)) 8 0 < 8 := by
          rcases Nat.lt_or_ge (scan_first (fun i => q (j + i)) 8 0) 8 with h | h
          · exact h
          · exact absurd (g4 i (Nat.zero_le _) (by omega)) (by simp [hlane])
        refine ⟨by omega, by omega, ?_, ?_⟩
        · intro _
          exact g3 (by omega)
        · intro k hk1 hk2
          have := g4 (k - j) (Nat.zero_le _) (by omega)
          simpa [Nat.add_sub_cancel' hk1] using this
      · have hstep : first_block_loop q (fl + 1) rem j =
            first_block_loop q fl (rem - 8) (j + 8) := by
          simp [first_block_loop, h8, hf]
        rw [hstep]
        obtain ⟨i1, i2, i3, i4⟩ := ih (rem - 8) (j + 8)
        refine ⟨by omega, by omega, fun h => i3 (by omega), ?_⟩
        intro k hk1 hk2
        rcases Nat.lt_or_ge k (j + 8) with hk | hk
        · have hnone : ¬ ((fun i => q (j + i)) (k - j) = true) := fun hqt =>
            hf (List.any_eq_true.mpr ⟨k - j, List.mem_range.mpr (by omega), hqt⟩)
          simp only [Nat.add_sub_cancel' hk1] at hnone
          exact Bool.eq_false_iff.mpr hnone
        · exact i4 k hk hk2
    · have hstep : first_block_loop q (fl + 1) rem j = scan_first q rem j := by
        simp [first_block_loop, h8]
      rw [hstep]
      exact scan_first_spec q rem j

theorem first_block_loop_end_iff (q : Nat → Bool) (fuel rem j : Nat) :
    first_block_loop q fuel rem j = j + rem ↔
      ∀ k, j ≤ k → k < j + rem → q k = false := by
  obtain ⟨h1, h2, h3, h4⟩ := first_block_loop_spec q fuel rem j
  constructor
  · intro he k hk1 hk2
    exact h4 k hk1 (by omega)
  · intro hall
    rcases Nat.lt_or_ge (first_block_loop q fuel rem j) (j + rem) with h | h
    · exact absurd (h3 h) (by simp [hall _ h1 h])
    · omega

theorem scan_first2_spec (q : Nat → Nat → Bool) : ∀ rem j1 j2,
    j1 ≤ scan_first2 q rem j1 j2 ∧ scan_first2 q rem j1 j2 ≤ j1 + rem ∧
    (scan_first2 q rem j1 j2 < j1 + rem →
      q (scan_first2 q rem j1 j2) (j2 + (scan_first2 q rem j1 j2 - j1)) = true) ∧
    (∀ k, j1 ≤ k → k < scan_first2 q rem j1 j2 → q k (j2 + (k - j1)) = false) := by
  intro rem
  induction rem with
  | zero =>
    intro j1 j2
    simp only [scan_first2]
    exact ⟨Nat.le_refl _, by omega, fun h => absurd h (by omega),
      fun k h1 h2 => absurd h2 (by omega)⟩
  | succ r ih =>
    intro j1 j2
    cases hq : q j1 j2 with
    | true =>
      have hstep : scan_first2 q (r + 1) j1 j2 = j1 := by simp [scan_first2, hq]
      rw [hstep]
      refine ⟨Nat.le_refl _, by omega, fun _ => ?_, fun k h1 h2 => absurd h1 (by omega)⟩
      simpa using hq
    | false =>
      have hstep : scan_first2 q (r + 1) j1 j2 = scan_first2 q r (j1 + 1) (j2 + 1) := by
        simp [scan_first2, hq]
      rw [hstep]
      obtain ⟨h1, h2, h3, h4⟩ := ih (j1 + 1) (j2 + 1)
      refine ⟨by omega, by omega, ?_, ?_⟩
      · intro h
        have := h3 (by omega)
        have harith : (j2 + 1) + (scan_first2 q r (j1 + 1) (j2 + 1) - (j1 + 1)) =
            j2 + (scan_first2 q r (j1 + 1) (j2 + 1) - j1) := by omega
        rwa [harith] at this
      · intro k hk1 hk2
        rcases Nat.eq_or_lt_of_le hk1 with rfl | hk
        · simpa using hq
        · have := h4 k hk hk2
          have harith : (j2 + 1) + (k - (j1 + 1)) = j2 + (k - j1) := by omega
          rwa [harith] at this

theorem first_block_loop2_spec (q : Nat → Nat → Bool) : ∀ fuel rem j1 j2,
    j1 ≤ first_block_loop2 q fuel rem j1 j2 ∧
    first_block_loop2 q fuel rem j1 j2 ≤ j1 + rem ∧
    (first_block_loop2 q fuel rem j1 j2 < j1 + rem →
      q (first_block_loop2 q fuel rem j1 j2)
        (j2 + (first_block_loop2 q fuel rem j1 j2 - j1)) = true) ∧
    (∀ k, j1 ≤ k → k < first_block_loop2 q fuel rem j1 j2 →
      q k (j2 + (k - j1)) = false) := by
  intro fuel
  induction fuel with
  | zero => intro rem j1 j2; simpa [first_block_loop2] using scan_first2_spec q rem j1 j2
  | succ fl ih =>
    intro rem j1 j2
    by_cases h8 : 8 ≤ rem
    · by_cases hf : (List.range 8).any (fun i => q (j1 + i) (j2 + i)) = true
      · have hstep : first_block_loop2 q (fl + 1) rem j1 j2 =
            j1 + scan_first (fun i => q (j1 + i) (j2 + i)) 8 0 := by
          simp [first_block_loop2, h8, hf]
        rw [hstep]
        obtain ⟨i, hi, hlane⟩ := List.any_eq_true.mp hf
        rw [List.mem_range] at hi
        obtain ⟨g1, g2, g3, g4⟩ := scan_first_spec (fun i => q (j1 + i) (j2 + i)) 8 0
        have hm : scan_first (fun i => q (j1 + i) (j2 + i)) 8 0 < 8 := by
          rcases Nat.lt_or_ge (scan_first (fun i => q (j1 + i) (j2 + i)) 8 0) 8 with h | h
          · exact h
          · exact absurd (g4 i (Nat.zero_le _) (by omega)) (by simp [hlane])
        refine ⟨by omega, by omega, ?_, ?_⟩
        · intro _
          have := g3 (by omega)
          simpa [Nat.add_sub_cancel_left] using this
        · intro k hk1 hk2
          have := g4 (k - j1) (Nat.zero_le _) (by omega)
          simpa [Nat.add_sub_cancel' hk1] using this
      · have hstep : first_block_loop2 q (fl + 1) rem j1 j2 =
            first_block_loop2 q fl (rem - 8) (j1 + 8) (j2 + 8) := by
          simp [first_block_loop2, h8, hf]
        rw [hstep]
        obtain ⟨i1, i2, i3, i4⟩ := ih (rem - 8) (j1 + 8) (j2 + 8)
        refine ⟨by omega, by omega, ?_, ?_⟩
        · intro h
          have := i3 (by omega)
          have harith : (j2 + 8) +
              (first_block_loop2 q fl (rem - 8) (j1 + 8) (j2 + 8) - (j1 + 8)) =
              j2 + (first_block_loop2 q fl (rem - 8) (j1 + 8) (j2 + 8) - j1) := by
            omega
          rwa [harith] at this
        · intro k hk1 hk2
          rcases Nat.lt_or_ge k (j1 + 8) with hk | hk
          · have hnone : ¬ ((fun i => q (j1 + i) (j2 + i)) (k - j1) = true) := fun hqt =>
              hf (List.any_eq_true.mpr ⟨k - j1, List.mem_range.mpr (by omega), hqt⟩)
            simp only at hnone
            have harith1 : j1 + (k - j1) = k := by omega
            rw [harith1] at hnone
            exact Bool.eq_false_iff.mpr hnone
          · have := i4 k hk hk2
            have harith : (j2 + 8) + (k - (j1 + 8)) = j2 + (k - j1) := by omega
            rwa [harith] at this
    · have hstep : first_block_loop2 q (fl + 1) rem j1 j2 = scan_first2 q rem j1 j2 := by
        simp [first_block_loop2, h8]
      rw [hstep]
      exact scan_first2_spec q rem j1 j2

theorem first_block_loop2_end_iff (q : Nat → Nat → Bool) (fuel rem j1 j2 : Nat) :
    first_block_loop2 q fuel rem j1 j2 = j1 + rem ↔
      ∀ k, k < rem → q (j1 + k) (j2 + k) = false := by
  obtain ⟨h1, h2, h3, h4⟩ := first_block_loop2_spec q fuel rem j1 j2
  constructor
  · intro he k hk
    have := h4 (j1 + k) (by omega) (by omega)
    simpa [Nat.add_sub_cancel_left] using this
  · intro hall
    rcases Nat.lt_or_ge (first_block_loop2 q fuel rem j1 j2) (j1 + rem) with h | h
    · have := h3 h
      have hd := hall (first_block_loop2 q fuel rem j1 j2 - j1) (by omega)
      rw [Nat.add_sub_cancel' h1] at hd
      simp [hd] at this
    · omega

/-! ## Concrete data used by the witness theorems -/

def wlist1 : List Nat := [5, 1, 7, 7, 1, 1, 1, 1, 1, 7]

def wf1 : Nat → Nat := fun i => wlist1.getD i 0

def wp7 : Nat → Bool := fun x => x == 7

/-- **C1**: `simd_first` — in the one-stream and the zipped two-stream
variant, over the lane-width-8 block scan with lane-buffer tie-break
and scalar remainder, for every `n` including `n < 8` — returns `last`
(`first + n`) exactly when no element satisfies the predicate;
otherwise the predicate holds at the returned index and at no earlier
index of the range. -/
theorem c1_simd_first_first_match (A B : Type) (f : Nat → A) (pred : A → Bool)
    (first n : Nat) (f1 : Nat → A) (f2 : Nat → B) (first1 first2 : Nat)
    (bpred : A → B → Bool) :
    (simd_first f first n pred = first + n ↔
      ∀ k, k < n → pred (f (first + k)) = false) ∧
    (simd_first f first n pred ≠ first + n →
      first ≤ simd_first f first n pred ∧
      simd_first f first n pred < first + n ∧
      pred (f (simd_first f first n pred)) = true ∧
      ∀ j, first ≤ j → j < simd_first f first n pred → pred (f j) = false) ∧
    (simd_first2 f1 first1 n f2 first2 bpred = first1 + n ↔
      ∀ k, k < n → bpred (f1 (first1 + k)) (f2 (first2 + k)) = false) ∧
    (simd_first2 f1 first1 n f2 first2 bpred ≠ first1 + n →
      ∃ d, d < n ∧ simd_first2 f1 first1 n f2 first2 bpred = first1 + d ∧
        bpred (f1 (first1 + d)) (f2 (first2 + d)) = true ∧
        ∀ e, e < d → bpred (f1 (first1 + e)) (f2 (first2 + e)) = false) := by
  simp only [simd_first, simd_first2]
  obtain ⟨h1, h2, h3, h4⟩ := first_block_loop_spec (fun k => pred (f k)) n n first
  obtain ⟨g1, g2, g3, g4⟩ :=
    first_block_loop2_spec (fun k1 k2 => bpred (f1 k1) (f2 k2)) n n first1 first2
  refine ⟨?_, ?_, ?_, ?_⟩
  · rw [first_block_loop_end_iff]
    constructor
    · intro h k hk
      exact h (first + k) (by omega) (by omega)
    · intro h k hk1 hk2
      have := h (k - first) (by omega)
      rwa [Nat.add_sub_cancel' hk1] at this
  · intro hne
    have hlt : first_block_loop (fun k => pred (f k)) n n first < first + n := by
      omega
    exact ⟨h1, hlt, h3 hlt, fun j hj1 hj2 => h4 j hj1 hj2⟩
  · rw [first_block_loop2_end_iff]
  · intro hne
    have hlt : first_block_loop2 (fun k1 k2 => bpred (f1 k1) (f2 k2)) n n
        first1 first2 < first1 + n := by omega
    refine ⟨first_block_loop2 (fun k1 k2 => bpred (f1 k1) (f2 k2)) n n
        first1 first2 - first1, by omega, by omega, ?_, ?_⟩
    · have := g3 hlt
      rw [Nat.add_sub_cancel' g1]
      exact this
    · intro e he
      have := g4 (first1 + e) (by omega) (by omega)
      simpa [Nat.add_sub_cancel_left] using this

/-- Witness for C1: on `[5,1,7,7,1,1,1,1,1,7]` with the predicate
`(· == 7)` (a 10-element range, exercising one full block and the
scalar remainder), the returned index is in range and satisfies the
predicate. -/
theorem c1_simd_first_first_match_witness :
    simd_first wf1 0 10 wp7 < 0 + 10 ∧ wp7 (wf1 (simd_first wf1 0 10 wp7)) = true :=
  ⟨((c1_simd_first_first_match Nat Nat wf1 wp7 0 10 wf1 wf1 0 0
      (fun a b => a == b)).2.1 (by decide)).2.1,
   ((c1_simd_first_first_match Nat Nat wf1 wp7 0 10 wf1 wf1 0 0
      (fun a b => a == b)).2.1 (by decide)).2.2.1⟩

/-! ## Characterization of `simd_count` and `simd_or` -/

/-- Specification helper: the number of indices `k ∈ [j, j + rem)` with
`q k`. -/
def countP_from (q : Nat → Bool) : Nat → Nat → Nat
  | 0, _ => 0
  | rem + 1, j => (if q j then 1 else 0) + countP_from q rem (j + 1)

theorem count_loop_spec (q : Nat → Bool) : ∀ rem j c,
    count_loop q rem j c = c + countP_from q rem j := by
  intro rem
  induction rem with
  | zero => intro j c; simp [count_loop, countP_from]
  | succ r ih =>
    intro j c
    have hstep : count_loop q (r + 1) j c =
        count_loop q r (j + 1) (if q j then c + 1 else c) := by
      simp [count_loop]
    rw [hstep, ih]
    simp only [countP_from]
    cases hq : q j
    · rw [if_neg (by simp), if_neg (by simp)]
      omega
    · rw [if_pos rfl, if_pos rfl]
      omega

theorem countP_from_pos_iff (q : Nat → Bool) : ∀ rem j,
    0 < countP_from q rem j ↔ ∃ k, k < rem ∧ q (j + k) = true := by
  intro rem
  induction rem with
  | zero => intro j; simp [countP_from]
  | succ r ih =>
    intro j
    simp only [countP_from]
    cases hq : q j with
    | true =>
      rw [if_pos rfl]
      constructor
      · intro _
        exact ⟨0, Nat.succ_pos r, by simpa using hq⟩
      · intro _
        omega
    | false =>
      rw [if_neg (by simp), Nat.zero_add, ih]
      constructor
      · rintro ⟨k, hk, hqk⟩
        refine ⟨k + 1, by omega, ?_⟩
        have harith : j + (k + 1) = j + 1 + k := by omega
        rwa [harith]
      · rintro ⟨k, hk, hqk⟩
        cases k with
        | zero => rw [Nat.add_zero, hq] at hqk; cases hqk
        | succ k2 =>
          refine ⟨k2, by omega, ?_⟩
          have harith : j + 1 + k2 = j + (k2 + 1) := by omega
          rwa [harith]

theorem or_block_loop_iff (q : Nat → Bool) : ∀ fuel rem j bs,
    rem < fuel → bs ≤ rem → (0 < rem → 0 < bs) →
    (or_block_loop q fuel rem j bs = true ↔ ∃ k, k < rem ∧ q (j + k) = true) := by
  intro fuel
  induction fuel with
  | zero => intro rem j bs h; omega
  | succ fl ih =>
    intro rem j bs hfuel hbs hpos
    by_cases hrem : rem = 0
    · subst hrem
      have hstep : or_block_loop q (fl + 1) 0 j bs = false := by
        simp [or_block_loop]
      rw [hstep]
      simp
    · have hbspos : 0 < bs := hpos (by omega)
      by_cases hany : (List.range bs).any (fun i => q (j + i)) = true
      · have hstep : or_block_loop q (fl + 1) rem j bs = true := by
          simp [or_block_loop, hrem, hany]
        rw [hstep]
        constructor
        · intro _
          obtain ⟨i, hi, hqi⟩ := List.any_eq_true.mp hany
          rw [List.mem_range] at hi
          exact ⟨i, by omega, hqi⟩
        · intro _
          rfl
      · have hstep : or_block_loop q (fl + 1) rem j bs =
            or_block_loop q fl (rem - bs) (j + bs)
              (if bs * 2 ≤ rem - bs then bs * 2 else rem - bs) := by
          simp [or_block_loop, hrem, hany]
        have hinv1 : (if bs * 2 ≤ rem - bs then bs * 2 else rem - bs) ≤ rem - bs := by
          split <;> omega
        have hinv2 : 0 < rem - bs →
            0 < (if bs * 2 ≤ rem - bs then bs * 2 else rem - bs) := by
          split <;> omega
        rw [hstep, ih (rem - bs) (j + bs) _ (by omega) hinv1 hinv2]
        constructor
        · rintro ⟨k, hk, hqk⟩
          refine ⟨bs + k, by omega, ?_⟩
          have harith : j + (bs + k) = j + bs + k := by omega
          rwa [harith]
        · rintro ⟨k, hk, hqk⟩
          rcases Nat.lt_or_ge k bs with hkbs | hkbs
          · exact absurd (List.any_eq_true.mpr
              ⟨k, List.mem_range.mpr hkbs, hqk⟩) hany
          · refine ⟨k - bs, by omega, ?_⟩
            have harith : j + bs + (k - bs) = j + k := by omega
            rwa [harith]

/-- **C4**: `simd_or` returns `true` iff `simd_count` is positive —
equivalently, iff some element of the range satisfies the predicate —
under the capability-absent adaptive block-doubling strategy
(`block_size = min(4, n)`, doubling when the remainder is at least
twice the block, shrinking to the exact remainder otherwise). -/
theorem c4_simd_or_iff_count (A : Type) (f : Nat → A) (pred : A → Bool)
    (first n : Nat) :
    (simd_or f first n pred = true ↔ 0 < simd_count f first n pred) ∧
    (simd_or f first n pred = true ↔ ∃ k, k < n ∧ pred (f (first + k)) = true) := by
  have hor := or_block_loop_iff (fun k => pred (f k)) (n + 1) n first (min 4 n)
    (by omega) (by omega) (by omega)
  have hcnt := count_loop_spec (fun k => pred (f k)) n first 0
  have hpos := countP_from_pos_iff (fun k => pred (f k)) n first
  constructor
  · simp only [simd_or, simd_count]
    rw [hor, hcnt, Nat.zero_add, hpos]
  · simp only [simd_or]
    rw [hor]

/-- Witness for C4 on `[5,1,7,7,1,1,1,1,1,7]` with predicate
`(· == 7)`. -/
theorem c4_simd_or_iff_count_witness :
    simd_or wf1 0 10 wp7 = true ↔ 0 < simd_count wf1 0 10 wp7 :=
  (c4_simd_or_iff_count Nat wf1 wp7 0 10).1

/-! ## Characterization of `simd_copy_if` -/

theorem cif_loop_spec (pred : α → Bool) : ∀ (l : List α) (cnt : Nat),
    (cif_loop pred l cnt).1 = cnt + (l.filter pred).length ∧
    (cif_loop pred l cnt).2.map Prod.snd = l.filter pred ∧
    (cif_loop pred l cnt).2.map Prod.fst = List.range' cnt (l.filter pred).length := by
  intro l
  induction l with
  | nil => intro cnt; simp [cif_loop]
  | cons x xs ih =>
    intro cnt
    cases hp : pred x with
    | true =>
      have hstep : cif_loop pred (x :: xs) cnt =
          ((cif_loop pred xs (cnt + 1)).1, (cnt, x) :: (cif_loop pred xs (cnt + 1)).2) := by
        simp [cif_loop, hp]
      obtain ⟨i1, i2, i3⟩ := ih (cnt + 1)
      rw [hstep]
      rw [List.filter_cons, if_pos hp]
      refine ⟨?_, ?_, ?_⟩
      · simp only [i1, List.length_cons]
        omega
      · simp [i2]
      · simp only [List.map_cons, i3, List.length_cons, List.range'_succ]
    | false =>
      have hstep : cif_loop pred (x :: xs) cnt = cif_loop pred xs cnt := by
        simp [cif_loop, hp]
      rw [hstep, List.filter_cons, if_neg (by simp [hp])]
      exact ih cnt

theorem filter_length_map_range (A : Type u) (f : Nat → A) (pred : A → Bool) :
    ∀ n j, (((List.range n).map (fun k => f (j + k))).filter pred).length =
      countP_from (fun k => pred (f k)) n j := by
  intro n
  induction n with
  | zero => intro j; simp [countP_from]
  | succ r ih =>
    intro j
    rw [List.range_succ_eq_map]
    simp only [List.map_cons, List.map_map, List.filter_cons]
    have hcomp : ((fun k => f (j + k)) ∘ Nat.succ) = (fun k => f (j + 1 + k)) := by
      funext k
      simp only [Function.comp]
      exact congrArg f (by omega)
    rw [hcomp]
    simp only [countP_from, Nat.add_zero]
    by_cases hp : pred (f j) = true
    · rw [if_pos hp, if_pos hp]
      simp only [List.length_cons, ih (j + 1)]
      omega
    · rw [if_neg hp, if_neg hp]
      simp only [Nat.zero_add, ih (j + 1)]

theorem map_range_zero_offset (A : Type u) (f : Nat → A) (n : Nat) :
    (List.range n).map f = (List.range n).map (fun k => f (0 + k)) := by
  refine List.map_congr_left ?_
  intro a _
  exact congrArg f (by omega)

/-- **C2**: `simd_copy_if` writes exactly the elements of the input
satisfying the predicate, in their original relative order (the store
values are the filtered input), into consecutive output positions
starting at 0 (the store positions are `0, 1, ...`), the returned
count equals `simd_count` over the same range, and `n = 0` produces
zero output. -/
theorem c2_simd_copy_if_filter (A : Type) (f : Nat → A) (n : Nat) (pred : A → Bool) :
    (simd_copy_if f n pred).2.map Prod.snd = ((List.range n).map f).filter pred ∧
    (simd_copy_if f n pred).2.map Prod.fst =
      List.range ((((List.range n).map f).filter pred).length) ∧
    (simd_copy_if f n pred).1 = simd_count f 0 n pred ∧
    (simd_copy_if f 0 pred).2 = [] := by
  obtain ⟨h1, h2, h3⟩ := cif_loop_spec pred ((List.range n).map f) 0
  refine ⟨?_, ?_, ?_, ?_⟩
  · exact h2
  · rw [simd_copy_if, h3]
    exact (List.range_eq_range' _).symm
  · rw [simd_copy_if, h1, simd_count, count_loop_spec, Nat.zero_add, Nat.zero_add]
    rw [map_range_zero_offset A f n]
    exact filter_length_map_range A f pred n 0
  · obtain ⟨g1, g2, g3⟩ := cif_loop_spec pred ((List.range 0).map f) 0
    have : (simd_copy_if f 0 pred).2.map Prod.snd = [] := by
      rw [simd_copy_if]
      simpa using g2
    exact List.map_eq_nil_iff.mp this

/-! ## `simd_copy_by_mask` versus `simd_copy_if` -/

theorem cbm_loop_eq_cif_loop (pred : α → Bool) : ∀ (l : List α) (cnt : Nat),
    cbm_loop (l.map (fun x => (x, pred x))) cnt = cif_loop pred l cnt := by
  intro l
  induction l with
  | nil => intro cnt; simp [cbm_loop, cif_loop]
  | cons x xs ih =>
    intro cnt
    by_cases hp : pred x = true
    · simp [cbm_loop, cif_loop, hp, ih]
    · simp [cbm_loop, cif_loop, hp, ih]

/-- **C5**: when the mask agrees with the predicate on every index of
the range (`mask[i] == p(element[i])` for all `i < n`), the stores of
`simd_copy_by_mask` — positions and values — are identical to those of
`simd_copy_if` on the same input: the mask-then-compact path and the
inline-predicate path produce the same output. -/
theorem c5_copy_by_mask_eq_copy_if (A : Type) (f : Nat → A) (n : Nat)
    (pred : A → Bool) (mask : Nat → Bool)
    (hm : ∀ i, i < n → mask i = pred (f i)) :
    (simd_copy_by_mask f n mask).2 = (simd_copy_if f n pred).2 := by
  rw [simd_copy_by_mask, simd_copy_if]
  have hlist : (List.range n).map (fun i => (f i, mask i)) =
      ((List.range n).map f).map (fun x => (x, pred x)) := by
    rw [List.map_map]
    refine List.map_congr_left ?_
    intro a ha
    rw [List.mem_range] at ha
    simp [Function.comp, hm a ha]
  rw [hlist, cbm_loop_eq_cif_loop]

/-- Witness for C5 on `[5,1,7,7,1,1,1,1,1,7]` with predicate
`(· == 7)` and the pointwise-equal mask. -/
theorem c5_copy_by_mask_eq_copy_if_witness :
    (simd_copy_by_mask wf1 10 (fun i => wp7 (wf1 i))).2 =
      (simd_copy_if wf1 10 wp7).2 :=
  c5_copy_by_mask_eq_copy_if Nat wf1 10 wp7 (fun i => wp7 (wf1 i))
    (fun _ _ => rfl)

/-! ## Compaction counts (C6) -/

theorem simd_unique_copy_pos (f : Nat → α) (n : Nat) (pred : α → α → Bool)
    (hn : n ≠ 0) :
    simd_unique_copy f n pred =
      ((ucl_loop pred (f 0) (((List.range n).map f).drop 1) 1).1,
       (0, f 0) :: (ucl_loop pred (f 0) (((List.range n).map f).drop 1) 1).2) := by
  rw [simd_unique_copy, if_neg hn]

theorem ucl_loop_count (pred : α → α → Bool) : ∀ (l : List α) (prev : α) (cnt : Nat),
    (ucl_loop pred prev l cnt).1 = cnt + (ucl_loop pred prev l cnt).2.length ∧
    (ucl_loop pred prev l cnt).2.length ≤ l.length := by
  intro l
  induction l with
  | nil => intro prev cnt; simp [ucl_loop]
  | cons y ys ih =>
    intro prev cnt
    by_cases hp : pred y prev = true
    · have hstep : ucl_loop pred prev (y :: ys) cnt = ucl_loop pred y ys cnt := by
        simp [ucl_loop, hp]
      rw [hstep]
      obtain ⟨i1, i2⟩ := ih y cnt
      exact ⟨i1, by simp only [List.length_cons]; omega⟩
    · have hstep : ucl_loop pred prev (y :: ys) cnt =
          ((ucl_loop pred y ys (cnt + 1)).1,
           (cnt, y) :: (ucl_loop pred y ys (cnt + 1)).2) := by
        simp [ucl_loop, hp]
      rw [hstep]
      obtain ⟨i1, i2⟩ := ih y (cnt + 1)
      constructor
      · simp only [List.length_cons]
        omega
      · simp only [List.length_cons]
        omega

theorem cbm_loop_count : ∀ (l : List (α × Bool)) (cnt : Nat),
    (cbm_loop l cnt).2.length ≤ l.length := by
  intro l
  induction l with
  | nil => intro cnt; simp [cbm_loop]
  | cons xm xs ih =>
    intro cnt
    obtain ⟨x, m⟩ := xm
    by_cases hm : m = true
    · have hstep : cbm_loop ((x, m) :: xs) cnt =
          ((cbm_loop xs (cnt + 1)).1, (cnt, x) :: (cbm_loop xs (cnt + 1)).2) := by
        simp [cbm_loop, hm]
      rw [hstep]
      simp only [List.length_cons]
      have := ih (cnt + 1)
      omega
    · have hstep : cbm_loop ((x, m) :: xs) cnt = cbm_loop xs cnt := by
        simp [cbm_loop, hm]
      rw [hstep]
      simp only [List.length_cons]
      have := ih cnt
      omega

/-- Counterexample to C6 as stated: the C++ `simd_copy_by_mask` has
return type `void`, so its return value is the same for a call that
writes 2 elements and a call that writes 0 — it does not return the
number of elements it wrote to its caller. -/
theorem c6_counterexample :
    (simd_copy_by_mask (fun i => [1, 2].getD i 0) 2 (fun _ => true)).2.length = 2 ∧
    (simd_copy_by_mask (fun i => [1, 2].getD i 0) 2 (fun _ => false)).2.length = 0 ∧
    (simd_copy_by_mask (fun i => [1, 2].getD i 0) 2 (fun _ => true)).1 =
      (simd_copy_by_mask (fun i => [1, 2].getD i 0) 2 (fun _ => false)).1 :=
  ⟨by decide, by decide, rfl⟩

/-- **C6 (amended)**: `simd_copy_if` and `simd_unique_copy` return the
number of elements written (one past the last written output
position), never exceeding `n`; `simd_copy_by_mask` also writes at
most `n` elements but returns nothing (`void`) — its write count is
not reported to the caller. -/
theorem c6_amended_compaction_counts (A : Type) (f : Nat → A) (n : Nat)
    (pred : A → Bool) (bpred : A → A → Bool) (mask : Nat → Bool) :
    (simd_copy_if f n pred).1 = (simd_copy_if f n pred).2.length ∧
    (simd_copy_if f n pred).1 ≤ n ∧
    (simd_unique_copy f n bpred).1 = (simd_unique_copy f n bpred).2.length ∧
    (simd_unique_copy f n bpred).1 ≤ n ∧
    (simd_copy_by_mask f n mask).1 = () ∧
    (simd_copy_by_mask f n mask).2.length ≤ n := by
  obtain ⟨h1, h2, h3⟩ := cif_loop_spec pred ((List.range n).map f) 0
  have hciflen : (simd_copy_if f n pred).2.length =
      (((List.range n).map f).filter pred).length := by
    rw [← h2, List.length_map, simd_copy_if]
  refine ⟨?_, ?_, ?_, ?_, rfl, ?_⟩
  · rw [simd_copy_if, h1, Nat.zero_add, ← hciflen, simd_copy_if]
  · rw [simd_copy_if, h1, Nat.zero_add]
    calc (((List.range n).map f).filter pred).length
        ≤ ((List.range n).map f).length := List.length_filter_le _ _
      _ = n := by simp
  · by_cases hn : n = 0
    · subst hn
      simp [simd_unique_copy]
    · rw [simd_unique_copy_pos f n bpred hn]
      obtain ⟨u1, u2⟩ := ucl_loop_count bpred (((List.range n).map f).drop 1) (f 0) 1
      simp only [List.length_cons]
      omega
  · by_cases hn : n = 0
    · subst hn
      simp [simd_unique_copy]
    · rw [simd_unique_copy_pos f n bpred hn]
      obtain ⟨u1, u2⟩ := ucl_loop_count bpred (((List.range n).map f).drop 1) (f 0) 1
      have hdrop : (((List.range n).map f).drop 1).length = n - 1 := by simp
      rw [hdrop] at u2
      simp only [List.length_cons]
      omega
  · rw [simd_copy_by_mask]
    have := cbm_loop_count ((List.range n).map (fun i => (f i, mask i))) 0
    simpa using this

/-! ## `simd_calc_mask_2` (C3) -/

theorem cm2_loop_spec (f : Int → α) (b : Int) (pred : α → α → Bool) : ∀ rem i c,
    (cm2_loop f b pred rem i c).2 =
      (List.range' i rem).map
        (fun k : Nat => (k, ! pred (f (b + (k : Int))) (f (b + (k : Int) - 1)))) ∧
    (cm2_loop f b pred rem i c).1 =
      c + countP_from (fun k => ! pred (f (b + k)) (f (b + k - 1))) rem i := by
  intro rem
  induction rem with
  | zero => intro i c; simp [cm2_loop, countP_from]
  | succ r ih =>
    intro i c
    have hstep : cm2_loop f b pred (r + 1) i c =
        ((cm2_loop f b pred r (i + 1)
            (if ! pred (f (b + i)) (f (b + i - 1)) then c + 1 else c)).1,
         (i, ! pred (f (b + i)) (f (b + i - 1))) ::
           (cm2_loop f b pred r (i + 1)
             (if ! pred (f (b + i)) (f (b + i - 1)) then c + 1 else c)).2) := by
      simp [cm2_loop]
    obtain ⟨i1, i2⟩ := ih (i + 1) (if ! pred (f (b + i)) (f (b + i - 1)) then c + 1 else c)
    rw [hstep]
    constructor
    · rw [List.range'_succ, List.map_cons, i1]
    · rw [i2]
      simp only [countP_from]
      by_cases hm : (! pred (f (b + i)) (f (b + i - 1))) = true
      · rw [if_pos hm, if_pos hm]
        omega
      · rw [if_neg hm, if_neg hm]
        omega

/-- Counterexample to C3 as stated: with `n = 1`, `simd_calc_mask_2`
stores to `mask[0]` (the store log is exactly position 0), its read
sequence contains offset `-1` — the element *before* the range — and
the value stored at `mask[0]` depends on that out-of-range element:
two inputs that agree on the whole range `[0, 1)` but differ at `-1`
produce different masks. -/
theorem c3_counterexample :
    ((simd_calc_mask_2 (fun i : Int => if i = -1 then (0 : Nat) else 1) 0 1
        (fun a b => a == b)).2.map Prod.fst = [0]) ∧
    (cm2_reads 0 1).contains (-1) = true ∧
    ((fun i : Int => if i = -1 then (0 : Nat) else 1) 0 = (fun _ : Int => (1 : Nat)) 0) ∧
    (simd_calc_mask_2 (fun i : Int => if i = -1 then (0 : Nat) else 1) 0 1
        (fun a b => a == b)).2 ≠
      (simd_calc_mask_2 (fun _ : Int => (1 : Nat)) 0 1 (fun a b => a == b)).2 :=
  ⟨by decide, by decide, rfl, by decide⟩

/-- **C3 (amended)**: `simd_calc_mask_2` computes
`mask[i] = !pred(element[i], element[i-1])` for *every* index
`i ∈ [0, n)`, including `i = 0`: the store log is exactly positions
`0..n-1` with those values, the returned count is the number of true
mask entries, and every input index the loop dereferences lies in
`[first - 1, first + n)` — at `i = 0` the predecessor read is the
element immediately before the range, which the caller must make
valid. -/
theorem c3_amended_calc_mask_2 (A : Type) (f : Int → A) (b : Int) (n : Nat)
    (pred : A → A → Bool) :
    (simd_calc_mask_2 f b n pred).2 =
      (List.range n).map
        (fun k : Nat => (k, ! pred (f (b + (k : Int))) (f (b + (k : Int) - 1)))) ∧
    (simd_calc_mask_2 f b n pred).1 =
      countP_from (fun k => ! pred (f (b + k)) (f (b + k - 1))) n 0 ∧
    (cm2_reads b n).all
      (fun x => decide (b - 1 ≤ x) && decide (x < b + n)) = true := by
  obtain ⟨h1, h2⟩ := cm2_loop_spec f b pred n 0 0
  refine ⟨?_, ?_, ?_⟩
  · rw [simd_calc_mask_2, h1, List.range_eq_range']
  · rw [simd_calc_mask_2, h2, Nat.zero_add]
  · rw [List.all_eq_true]
    intro x hx
    rw [cm2_reads, List.mem_flatMap] at hx
    obtain ⟨i, hi, hxmem⟩ := hx
    rw [List.mem_range] at hi
    simp only [List.mem_cons, List.mem_singleton] at hxmem
    rcases hxmem with rfl | rfl | h
    · simp only [Bool.and_eq_true, decide_eq_true_eq]
      omega
    · simp only [Bool.and_eq_true, decide_eq_true_eq]
      omega
    · cases h

/-! ## Idempotence of `simd_unique_copy` (C7) -/

/-- Value sequence of the `simd_unique_copy` loop: specification view
of `ucl_loop` that forgets store positions and counter. -/
def uc_go (pred : α → α → Bool) : α → List α → List α
  | _, [] => []
  | prev, y :: ys => if pred y prev then uc_go pred y ys else y :: uc_go pred y ys

theorem ucl_loop_log (pred : α → α → Bool) : ∀ (l : List α) (prev : α) (cnt : Nat),
    (ucl_loop pred prev l cnt).2 =
      (List.range' cnt (uc_go pred prev l).length).zip (uc_go pred prev l) ∧
    (ucl_loop pred prev l cnt).1 = cnt + (uc_go pred prev l).length := by
  intro l
  induction l with
  | nil => intro prev cnt; simp [ucl_loop, uc_go]
  | cons y ys ih =>
    intro prev cnt
    by_cases hp : pred y prev = true
    · have hstep : ucl_loop pred prev (y :: ys) cnt = ucl_loop pred y ys cnt := by
        simp [ucl_loop, hp]
      have hgo : uc_go pred prev (y :: ys) = uc_go pred y ys := by
        simp [uc_go, hp]
      rw [hstep, hgo]
      exact ih y cnt
    · have hstep : ucl_loop pred prev (y :: ys) cnt =
          ((ucl_loop pred y ys (cnt + 1)).1,
           (cnt, y) :: (ucl_loop pred y ys (cnt + 1)).2) := by
        simp [ucl_loop, hp]
      have hgo : uc_go pred prev (y :: ys) = y :: uc_go pred y ys := by
        simp [uc_go, hp]
      rw [hstep, hgo]
      obtain ⟨i1, i2⟩ := ih y (cnt + 1)
      constructor
      · rw [List.length_cons, List.range'_succ, List.zip_cons_cons, i1]
      · rw [List.length_cons, i2]
        omega

theorem uc_go_congr_prev (pred : α → α → Bool)
    (hsymm : ∀ a b, pred a b = pred b a)
    (htrans : ∀ a b c, pred a b = true → pred b c = true → pred a c = true) :
    ∀ (l : List α) (x y : α), pred y x = true → uc_go pred y l = uc_go pred x l := by
  intro l
  induction l with
  | nil => intro x y _; rfl
  | cons z zs ih =>
    intro x y hyx
    have hz : pred z y = pred z x := by
      cases hzy : pred z y with
      | true => exact (htrans z y x hzy hyx).symm
      | false =>
        cases hzx : pred z x with
        | true =>
          have hxy : pred x y = true := by rw [hsymm x y]; exact hyx
          have := htrans z x y hzx hxy
          rw [hzy] at this
          cases this
        | false => rfl
    simp only [uc_go]
    rw [hz]

theorem uc_go_chain (pred : α → α → Bool)
    (hsymm : ∀ a b, pred a b = pred b a)
    (htrans : ∀ a b c, pred a b = true → pred b c = true → pred a c = true) :
    ∀ (l : List α) (x : α),
      List.Chain' (fun a b => pred b a = false) (x :: uc_go pred x l) := by
  intro l
  induction l with
  | nil => intro x; simp [uc_go]
  | cons y ys ih =>
    intro x
    by_cases hp : pred y x = true
    · have hstep : uc_go pred x (y :: ys) = uc_go pred x ys := by
        simp only [uc_go]
        rw [if_pos hp, uc_go_congr_prev pred hsymm htrans ys x y hp]
      rw [hstep]
      exact ih x
    · have hstep : uc_go pred x (y :: ys) = y :: uc_go pred y ys := by
        simp only [uc_go]
        rw [if_neg hp]
      rw [hstep, List.chain'_cons]
      exact ⟨Bool.eq_false_iff.mpr hp, ih y⟩

theorem uc_go_of_chain (pred : α → α → Bool) : ∀ (l : List α) (prev : α),
    List.Chain' (fun a b => pred b a = false) (prev :: l) →
    uc_go pred prev l = l := by
  intro l
  induction l with
  | nil => intro prev _; rfl
  | cons y ys ih =>
    intro prev h
    rw [List.chain'_cons] at h
    obtain ⟨h1, h2⟩ := h
    simp only [uc_go]
    rw [if_neg (by simp [h1]), ih y h2]

theorem uc_go_idem (pred : α → α → Bool)
    (hsymm : ∀ a b, pred a b = pred b a)
    (htrans : ∀ a b c, pred a b = true → pred b c = true → pred a c = true)
    (l : List α) (x : α) :
    uc_go pred x (uc_go pred x l) = uc_go pred x l :=
  uc_go_of_chain pred _ x (uc_go_chain pred hsymm htrans l x)

theorem map_getD_range (d : α) : ∀ l : List α,
    (List.range l.length).map (fun i => l.getD i d) = l := by
  intro l
  induction l with
  | nil => simp
  | cons x xs ih =>
    rw [List.length_cons, List.range_succ_eq_map]
    simp only [List.map_cons, List.map_map, List.getD_cons_zero]
    have htail : ((fun i => (x :: xs).getD i d) ∘ Nat.succ) =
        (fun i => xs.getD i d) := by
      funext i
      simp [Function.comp, List.getD_cons_succ]
    rw [htail, ih]

/-- **C7**: `simd_unique_copy` is idempotent for an equivalence
predicate (here: any symmetric and transitive `pred`): re-running the
kernel on its own output — the written values, with the returned count
as the new range length — returns the same count and produces an
identical store log.  This rests on element 0 always being copied and
element `i ≥ 1` being copied iff it is not equivalent to element
`i - 1`. -/
theorem c7_unique_copy_idempotent (A : Type) (d : A) (f : Nat → A) (n : Nat)
    (pred : A → A → Bool)
    (hsymm : ∀ a b, pred a b = pred b a)
    (htrans : ∀ a b c, pred a b = true → pred b c = true → pred a c = true) :
    simd_unique_copy
      (fun i => ((simd_unique_copy f n pred).2.map Prod.snd).getD i d)
      (simd_unique_copy f n pred).1 pred = simd_unique_copy f n pred := by
  by_cases hn : n = 0
  · subst hn
    simp [simd_unique_copy]
  · set w := uc_go pred (f 0) (((List.range n).map f).drop 1) with hw
    obtain ⟨l1, l2⟩ := ucl_loop_log pred (((List.range n).map f).drop 1) (f 0) 1
    rw [← hw] at l1 l2
    have hr : simd_unique_copy f n pred =
        (1 + w.length, (0, f 0) :: ((List.range' 1 w.length).zip w)) := by
      rw [simd_unique_copy_pos f n pred hn, l1, l2]
    have hvals : (simd_unique_copy f n pred).2.map Prod.snd = f 0 :: w := by
      rw [hr]
      simp only [List.map_cons]
      congr 1
      exact List.map_snd_zip _ _ (by rw [List.length_range'])
    have hcnt : (simd_unique_copy f n pred).1 = w.length + 1 := by
      rw [hr]
      show 1 + w.length = w.length + 1
      omega
    have hn2 : (simd_unique_copy f n pred).1 ≠ 0 := by
      rw [hcnt]
      omega
    have hmapg : (List.range (simd_unique_copy f n pred).1).map
        (fun i => ((simd_unique_copy f n pred).2.map Prod.snd).getD i d) =
        f 0 :: w := by
      simp only [hvals, hcnt]
      have := map_getD_range d (f 0 :: w)
      simpa using this
    have hdropg : ((List.range (simd_unique_copy f n pred).1).map
        (fun i => ((simd_unique_copy f n pred).2.map Prod.snd).getD i d)).drop 1
        = w := by
      rw [hmapg]
      rfl
    have hg0 : ((simd_unique_copy f n pred).2.map Prod.snd).getD 0 d = f 0 := by
      rw [hvals]
      exact List.getD_cons_zero
    have hidem : uc_go pred (f 0) w = w := by
      rw [hw]
      exact uc_go_idem pred hsymm htrans _ (f 0)
    obtain ⟨m1, m2⟩ := ucl_loop_log pred w (f 0) 1
    rw [hidem] at m1 m2
    rw [simd_unique_copy_pos _ _ pred hn2, hdropg, hg0, m1, m2, hr]

/-- Concrete data for the C7 witness: a `Bool` sequence with runs. -/
def wbf : Nat → Bool := fun i => [true, true, false, false, false, true].getD i false

/-- Witness for C7: idempotence at a concrete run-bearing input with
the (decidably symmetric and transitive) equality predicate on
`Bool`. -/
theorem c7_unique_copy_idempotent_witness :
    simd_unique_copy
      (fun i => ((simd_unique_copy wbf 6 (fun a b => a == b)).2.map Prod.snd).getD i false)
      (simd_unique_copy wbf 6 (fun a b => a == b)).1 (fun a b => a == b) =
      simd_unique_copy wbf 6 (fun a b => a == b) :=
  c7_unique_copy_idempotent Bool false wbf 6 (fun a b => a == b)
    (by decide) (by decide)

/-! ## `simd_adjacent_find` (C9) -/

theorem adj_scalar_spec (q : Nat → Bool) : ∀ rem j,
    j ≤ adj_scalar_loop q rem j ∧ adj_scalar_loop q rem j ≤ j + rem ∧
    (adj_scalar_loop q rem j < j + rem →
      q (adj_scalar_loop q rem j) = true ∧
      adj_scalar_loop q rem j + 1 < j + rem) ∧
    (∀ k, j ≤ k → k + 1 < j + rem → k < adj_scalar_loop q rem j →
      q k = false) := by
  intro rem
  induction rem with
  | zero =>
    intro j
    simp only [adj_scalar_loop]
    exact ⟨Nat.le_refl _, by omega, fun h => absurd h (by omega),
      fun k h1 h2 h3 => absurd h2 (by omega)⟩
  | succ r ih =>
    intro j
    cases r with
    | zero =>
      simp only [adj_scalar_loop]
      exact ⟨by omega, by omega, fun h => absurd h (by omega),
        fun k h1 h2 h3 => absurd h2 (by omega)⟩
    | succ r2 =>
      by_cases hq : q j = true
      · have hstep : adj_scalar_loop q (r2 + 2) j = j := by
          simp [adj_scalar_loop, hq]
        rw [hstep]
        exact ⟨Nat.le_refl _, by omega, fun _ => ⟨hq, by omega⟩,
          fun k h1 h2 h3 => absurd h1 (by omega)⟩
      · have hstep : adj_scalar_loop q (r2 + 2) j =
            adj_scalar_loop q (r2 + 1) (j + 1) := by
          simp [adj_scalar_loop, hq]
        rw [hstep]
        obtain ⟨i1, i2, i3, i4⟩ := ih (j + 1)
        refine ⟨by omega, by omega, ?_, ?_⟩
        · intro h
          obtain ⟨ha, hb⟩ := i3 (by omega)
          exact ⟨ha, by omega⟩
        · intro k h1 h2 h3
          rcases Nat.eq_or_lt_of_le h1 with rfl | hk
          · exact Bool.eq_false_iff.mpr hq
          · exact i4 k (by omega) (by omega) h3

theorem adj_block_end_iff (q : Nat → Bool) (b : Bool) : ∀ fuel rem j,
    adj_block_loop q b fuel rem j ≤ j + rem ∧
    (adj_block_loop q b fuel rem j = j + rem ↔
      ∀ k, j ≤ k → k + 1 < j + rem → q k = false) := by
  intro fuel
  induction fuel with
  | zero =>
    intro rem j
    obtain ⟨s1, s2, s3, s4⟩ := adj_scalar_spec q rem j
    simp only [adj_block_loop]
    refine ⟨s2, ?_, ?_⟩
    · intro he k hk1 hk2
      exact s4 k hk1 hk2 (by omega)
    · intro hall
      rcases Nat.lt_or_ge (adj_scalar_loop q rem j) (j + rem) with h | h
      · obtain ⟨ha, hb⟩ := s3 h
        exact absurd ha (by simp [hall _ s1 hb])
      · omega
  | succ fl ih =>
    intro rem j
    by_cases h8 : 8 ≤ rem
    · by_cases hf : (List.range 8).any (fun i =>
          if i < 7 then q (j + i) else decide (8 < rem) && q (j + 7)) = true
      · obtain ⟨i, hi, hlane⟩ := List.any_eq_true.mp hf
        rw [List.mem_range] at hi
        -- the true lane yields a valid matching pair
        have hpair : ∃ k, j ≤ k ∧ k + 1 < j + rem ∧ q k = true := by
          by_cases hi7 : i < 7
          · rw [if_pos hi7] at hlane
            exact ⟨j + i, by omega, by omega, hlane⟩
          · rw [if_neg hi7] at hlane
            rw [Bool.and_eq_true, decide_eq_true_eq] at hlane
            exact ⟨j + 7, by omega, by omega, hlane.2⟩
        have hres : adj_block_loop q b (fl + 1) rem j < j + rem := by
          obtain ⟨g1, g2, g3, g4⟩ := scan_first_spec (fun i =>
            if i < 7 then q (j + i) else decide (8 < rem) && q (j + 7)) 8 0
          have hm : scan_first (fun i =>
              if i < 7 then q (j + i) else decide (8 < rem) && q (j + 7)) 8 0 < 8 := by
            rcases Nat.lt_or_ge (scan_first (fun i =>
              if i < 7 then q (j + i) else decide (8 < rem) && q (j + 7)) 8 0) 8 with h | h
            · exact h
            · exact absurd (g4 i (Nat.zero_le _) (by omega)) (by simp [hlane])
          cases b with
          | true =>
            have hstep2 : adj_block_loop q true (fl + 1) rem j = j := by
              simp [adj_block_loop, h8, hf]
            rw [hstep2]
            omega
          | false =>
            have hstep2 : adj_block_loop q false (fl + 1) rem j =
                j + scan_first (fun i =>
                  if i < 7 then q (j + i) else decide (8 < rem) && q (j + 7)) 8 0 := by
              simp [adj_block_loop, h8, hf]
            rw [hstep2]
            omega
        refine ⟨by omega, ?_, ?_⟩
        · intro he
          omega
        · intro hall
          obtain ⟨k, hk1, hk2, hk3⟩ := hpair
          exact absurd hk3 (by simp [hall k hk1 hk2])
      · have hstep : adj_block_loop q b (fl + 1) rem j =
            adj_block_loop q b fl (rem - 8) (j + 8) := by
          simp [adj_block_loop, h8, hf]
        obtain ⟨ile, iiff⟩ := ih (rem - 8) (j + 8)
        have hnolane : ∀ k, j ≤ k → k < j + 8 → k + 1 < j + rem → q k = false := by
          intro k hk1 hk2 hk3
          have hnot : ¬ ((if k - j < 7 then q (j + (k - j))
              else decide (8 < rem) && q (j + 7)) = true) := fun hqt =>
            hf (List.any_eq_true.mpr ⟨k - j, List.mem_range.mpr (by omega), hqt⟩)
          by_cases hk7 : k - j < 7
          · rw [if_pos hk7] at hnot
            have harith : j + (k - j) = k := by omega
            rw [harith] at hnot
            exact Bool.eq_false_iff.mpr hnot
          · rw [if_neg hk7] at hnot
            have hk7e : k = j + 7 := by omega
            have h8r : 8 < rem := by omega
            rw [decide_eq_true h8r, Bool.true_and] at hnot
            rw [hk7e]
            exact Bool.eq_false_iff.mpr hnot
        rw [hstep]
        refine ⟨by omega, ?_, ?_⟩
        · intro he k hk1 hk2
          rcases Nat.lt_or_ge k (j + 8) with hk | hk
          · exact hnolane k hk1 hk hk2
          · have : adj_block_loop q b fl (rem - 8) (j + 8) = (j + 8) + (rem - 8) := by
              omega
            exact iiff.mp this k hk (by omega)
        · intro hall
          have : adj_block_loop q b fl (rem - 8) (j + 8) = (j + 8) + (rem - 8) := by
            refine iiff.mpr ?_
            intro k hk1 hk2
            exact hall k (by omega) (by omega)
          omega
    · have hstep : adj_block_loop q b (fl + 1) rem j = adj_scalar_loop q rem j := by
        simp [adj_block_loop, h8]
      obtain ⟨s1, s2, s3, s4⟩ := adj_scalar_spec q rem j
      rw [hstep]
      refine ⟨s2, ?_, ?_⟩
      · intro he k hk1 hk2
        exact s4 k hk1 hk2 (by omega)
      · intro hall
        rcases Nat.lt_or_ge (adj_scalar_loop q rem j) (j + rem) with h | h
        · obtain ⟨ha, hb⟩ := s3 h
          exact absurd ha (by simp [hall _ s1 hb])
        · omega

/-- Concrete data for C9: 16 elements whose only adjacent equal pair
is at indices (9, 10), i.e. inside the second 8-block. -/
def wadj : Nat → Nat :=
  fun i => [0, 1, 2, 3, 4, 5, 6, 7, 8, 9, 9, 10, 11, 12, 13, 14].getD i 0

/-- Counterexample to C9 as stated: on the range `[0, 16)` over `wadj`
with equality, the `or_semantic = false` call returns `9 ≠ last = 16`,
but the `or_semantic = true` call returns `8`, the start of the block
containing the match — not `first = 0`.  So "`or_semantic = true`
returns `first` iff `or_semantic = false` returns `≠ last`" fails. -/
theorem c9_counterexample :
    simd_adjacent_find wadj 0 16 (fun a b => a == b) false = 9 ∧
    (9 : Nat) ≠ 16 ∧
    simd_adjacent_find wadj 0 16 (fun a b => a == b) true = 8 ∧
    (8 : Nat) ≠ 0 :=
  ⟨by decide, by decide, by decide, by decide⟩

/-- **C9 (amended)**: for every range and binary predicate,
`simd_adjacent_find` with `or_semantic = true` returns a result
different from `last` iff the call with `or_semantic = false` does —
the existence-only mode and the exact-first-index mode agree on
whether a matching adjacent pair exists (the `or_semantic = true`
result is the start of the block containing the match, which need not
be the original `first`). -/
theorem c9_amended_adjacent_find_or_semantic (A : Type) (f : Nat → A)
    (first last : Nat) (pred : A → A → Bool) :
    simd_adjacent_find f first last pred true ≠ last ↔
      simd_adjacent_find f first last pred false ≠ last := by
  by_cases hd : last - first < 2
  · rw [simd_adjacent_find, if_pos hd, simd_adjacent_find, if_pos hd]
  · rw [simd_adjacent_find, if_neg hd, simd_adjacent_find, if_neg hd]
    have hlast : first + (last - first) = last := by omega
    obtain ⟨t1, t2⟩ := adj_block_end_iff (fun k => pred (f k) (f (k + 1))) true
      (last - first) (last - first) first
    obtain ⟨f1, f2⟩ := adj_block_end_iff (fun k => pred (f k) (f (k + 1))) false
      (last - first) (last - first) first
    rw [hlast] at t1 t2 f1 f2
    constructor
    · intro ht hfe
      exact ht (t2.mpr (f2.mp hfe))
    · intro hfa hte
      exact hfa (f2.mpr (t2.mp hte))

/-- Witness for the amended C9 at the concrete 16-element input. -/
theorem c9_amended_adjacent_find_or_semantic_witness :
    simd_adjacent_find wadj 0 16 (fun a b => a == b) true ≠ 16 ↔
      simd_adjacent_find wadj 0 16 (fun a b => a == b) false ≠ 16 :=
  c9_amended_adjacent_find_or_semantic Nat wadj 0 16 (fun a b => a == b)

/-! ## `simd_search` (C8, C10) -/

theorem search_loop_trace_shape (f g : Nat → α) (s_first s_last : Nat)
    (p : α → α → Bool) (b : Bool) : ∀ iters j,
    search_loop_trace f g s_first s_last p b iters j =
      List.range' j (search_loop_trace f g s_first s_last p b iters j).length := by
  intro iters
  induction iters with
  | zero => intro j; simp [search_loop_trace]
  | succ it ih =>
    intro j
    by_cases hc : (search_window_match g s_first s_last f j p && b) = true
    · have hstep : search_loop_trace f g s_first s_last p b (it + 1) j = [j] := by
        simp [search_loop_trace, hc]
      rw [hstep]
      simp [List.range'_one]
    · have hstep : search_loop_trace f g s_first s_last p b (it + 1) j =
          j :: search_loop_trace f g s_first s_last p b it (j + 1) := by
        simp [search_loop_trace, hc]
      rw [hstep, List.length_cons, List.range'_succ]
      exact congrArg (List.cons j) (ih (j + 1))

theorem search_window_match_iff (A : Type u) (g : Nat → A) (s_first s_last : Nat)
    (f : Nat → A) (j : Nat) (p : A → A → Bool) (hss : s_first ≤ s_last) :
    search_window_match g s_first s_last f j p = true ↔
      ∀ k, k < s_last - s_first → p (g (s_first + k)) (f (j + k)) = true := by
  rw [search_window_match, beq_iff_eq, simd_first2]
  have hend : s_first + (s_last - s_first) = s_last := by omega
  have hloop := first_block_loop2_end_iff
    (fun k1 k2 => not_pred p (g k1) (f k2)) (s_last - s_first) (s_last - s_first)
    s_first j
  rw [hend] at hloop
  rw [hloop]
  constructor
  · intro h k hk
    have := h k hk
    simpa [not_pred] using this
  · intro h k hk
    simp [not_pred, h k hk]

theorem search_loop_none (f g : Nat → α) (s_first s_last : Nat)
    (p : α → α → Bool) (b : Bool) : ∀ iters j res,
    (∀ k, k < iters → search_window_match g s_first s_last f (j + k) p = false) →
    search_loop f g s_first s_last p b iters j res = res := by
  intro iters
  induction iters with
  | zero => intro j res _; rfl
  | succ it ih =>
    intro j res hall
    have hMj : search_window_match g s_first s_last f j p = false := by
      have := hall 0 (by omega)
      rwa [Nat.add_zero] at this
    have hstep : search_loop f g s_first s_last p b (it + 1) j res =
        search_loop f g s_first s_last p b it (j + 1) res := by
      simp [search_loop, hMj]
    rw [hstep]
    refine ih (j + 1) res ?_
    intro k hk
    have := hall (k + 1) (by omega)
    rwa [show j + (k + 1) = j + 1 + k from by omega] at this

theorem search_loop_true_found (f g : Nat → α) (s_first s_last : Nat)
    (p : α → α → Bool) : ∀ iters j res k, k < iters →
    search_window_match g s_first s_last f (j + k) p = true →
    (∀ e, e < k → search_window_match g s_first s_last f (j + e) p = false) →
    search_loop f g s_first s_last p true iters j res = j + k := by
  intro iters
  induction iters with
  | zero => intro j res k hk _ _; exact absurd hk (by omega)
  | succ it ih =>
    intro j res k hk hM hmin
    cases k with
    | zero =>
      rw [Nat.add_zero] at hM
      have hstep : search_loop f g s_first s_last p true (it + 1) j res = j := by
        simp [search_loop, hM]
      rw [hstep, Nat.add_zero]
    | succ ka =>
      have hMj : search_window_match g s_first s_last f j p = false := by
        have := hmin 0 (by omega)
        rwa [Nat.add_zero] at this
      have hstep : search_loop f g s_first s_last p true (it + 1) j res =
          search_loop f g s_first s_last p true it (j + 1) res := by
        simp [search_loop, hMj]
      rw [hstep]
      have hM2 : search_window_match g s_first s_last f (j + 1 + ka) p = true := by
        rwa [show j + 1 + ka = j + (ka + 1) from by omega]
      have hmin2 : ∀ e, e < ka →
          search_window_match g s_first s_last f (j + 1 + e) p = false := by
        intro e he
        have := hmin (e + 1) (by omega)
        rwa [show j + (e + 1) = j + 1 + e from by omega] at this
      rw [ih (j + 1) res ka (by omega) hM2 hmin2]
      omega

theorem search_loop_false_found (f g : Nat → α) (s_first s_last : Nat)
    (p : α → α → Bool) : ∀ iters j res k, k < iters →
    search_window_match g s_first s_last f (j + k) p = true →
    ∃ k2, k ≤ k2 ∧ k2 < iters ∧
      search_window_match g s_first s_last f (j + k2) p = true ∧
      search_loop f g s_first s_last p false iters j res = j + k2 ∧
      ∀ e, k2 < e → e < iters →
        search_window_match g s_first s_last f (j + e) p = false := by
  intro iters
  induction iters with
  | zero => intro j res k hk _; exact absurd hk (by omega)
  | succ it ih =>
    intro j res k hk hM
    by_cases hMj : search_window_match g s_first s_last f j p = true
    · have hstep : search_loop f g s_first s_last p false (it + 1) j res =
          search_loop f g s_first s_last p false it (j + 1) j := by
        simp [search_loop, hMj]
      by_cases hex : ∃ k3, k3 < it ∧
          search_window_match g s_first s_last f (j + 1 + k3) p = true
      · obtain ⟨k3, hk3, hM3⟩ := hex
        obtain ⟨k2, b1, b2, b3, b4, b5⟩ := ih (j + 1) j k3 hk3 hM3
        have hkle : k ≤ k2 + 1 := by
          cases k with
          | zero => omega
          | succ ka =>
            by_contra hgt
            have hfalse := b5 ka (by omega) (by omega)
            rw [show j + 1 + ka = j + (ka + 1) from by omega] at hfalse
            rw [hM] at hfalse
            cases hfalse
        refine ⟨k2 + 1, hkle, by omega, ?_, ?_, ?_⟩
        · rwa [show j + (k2 + 1) = j + 1 + k2 from by omega]
        · rw [hstep, b4]
          omega
        · intro e he1 he2
          cases e with
          | zero => exact absurd he1 (by omega)
          | succ e2 =>
            have := b5 e2 (by omega) (by omega)
            rwa [show j + 1 + e2 = j + (e2 + 1) from by omega] at this
      · have hnone : ∀ k3, k3 < it →
            search_window_match g s_first s_last f (j + 1 + k3) p = false := by
          intro k3 hk3
          refine Bool.eq_false_iff.mpr ?_
          exact fun hT => hex ⟨k3, hk3, hT⟩
        have hk0 : k = 0 := by
          cases k with
          | zero => rfl
          | succ ka =>
            exact absurd (⟨ka, by omega, by
                rwa [show j + 1 + ka = j + (ka + 1) from by omega]⟩ :
              ∃ k3, k3 < it ∧
                search_window_match g s_first s_last f (j + 1 + k3) p = true) hex
        subst hk0
        refine ⟨0, Nat.le_refl 0, by omega, by rwa [Nat.add_zero], ?_, ?_⟩
        · rw [hstep, search_loop_none f g s_first s_last p false it (j + 1) j hnone]
          omega
        · intro e he1 he2
          cases e with
          | zero => exact absurd he1 (by omega)
          | succ e2 =>
            have := hnone e2 (by omega)
            rwa [show j + 1 + e2 = j + (e2 + 1) from by omega] at this
    · have hstep : search_loop f g s_first s_last p false (it + 1) j res =
          search_loop f g s_first s_last p false it (j + 1) res := by
        simp [search_loop, hMj]
      cases k with
      | zero =>
        rw [Nat.add_zero] at hM
        exact absurd hM hMj
      | succ ka =>
        have hM2 : search_window_match g s_first s_last f (j + 1 + ka) p = true := by
          rwa [show j + 1 + ka = j + (ka + 1) from by omega]
        obtain ⟨k2, b1, b2, b3, b4, b5⟩ := ih (j + 1) res ka (by omega) hM2
        refine ⟨k2 + 1, by omega, by omega, ?_, ?_, ?_⟩
        · rwa [show j + (k2 + 1) = j + 1 + k2 from by omega]
        · rw [hstep, b4]
          omega
        · intro e he1 he2
          cases e with
          | zero => exact absurd he1 (by omega)
          | succ e2 =>
            have := b5 e2 (by omega) (by omega)
            rwa [show j + 1 + e2 = j + (e2 + 1) from by omega] at this

/-- Concrete haystack for C8/C10: `[1,2,3,4,5]`. -/
def wh : Nat → Nat := fun i => [1, 2, 3, 4, 5].getD i 0

/-- Concrete needle for C8/C10: `[3,4]`, matching `wh` at start 2. -/
def wn : Nat → Nat := fun i => [3, 4].getD i 0

/-- Counterexample to C8 as stated: on haystack `[1,2,3,4,5]`, needle
`[3,4]`, `first_occurrence = true`, the candidate positions actually
tested are `[0, 1, 2]` — ascending from the first valid position, not
descending from the last valid position 3 (which would give
`[3, 2, 1, 0]` before reaching position 0).  The result, 2, is still
the leftmost occurrence, because the loop breaks at the first match
instead of overwriting until position 0. -/
theorem c8_counterexample :
    simd_search_trace wh 0 5 wn 0 2 (fun a b => a == b) true = [0, 1, 2] ∧
    simd_search_trace wh 0 5 wn 0 2 (fun a b => a == b) true ≠ [3, 2, 1, 0] ∧
    simd_search wh 0 5 wn 0 2 (fun a b => a == b) true = 2 :=
  ⟨by decide, by decide, by decide⟩

/-- **C8 (amended)**: in `simd_search` the loop counter counts down
from `n1 - n2` while the candidate iterator advances forward, so the
candidate start positions are tested from the *first* valid position
onward: the tested-candidate trace is the consecutive ascending range
starting at `first`.  When `first_occurrence` is requested the loop
breaks at the first match found, so the returned value is the leftmost
occurrence — the window at the result matches, no earlier window
matches, and if any valid window matches the result is not `last`. -/
theorem c8_amended_search_forward_leftmost (A : Type) (f : Nat → A)
    (first last : Nat) (g : Nat → A) (s_first s_last : Nat) (p : A → A → Bool) :
    (simd_search_trace f first last g s_first s_last p true =
      List.range' first
        (simd_search_trace f first last g s_first s_last p true).length) ∧
    (simd_search f first last g s_first s_last p true ≠ last →
      first ≤ simd_search f first last g s_first s_last p true ∧
      search_window_match g s_first s_last f
        (simd_search f first last g s_first s_last p true) p = true ∧
      ∀ j, first ≤ j → j < simd_search f first last g s_first s_last p true →
        search_window_match g s_first s_last f j p = false) ∧
    (1 ≤ s_last - s_first → s_last - s_first ≤ last - first →
      ∀ j, first ≤ j → j ≤ first + ((last - first) - (s_last - s_first)) →
        search_window_match g s_first s_last f j p = true →
        simd_search f first last g s_first s_last p true ≠ last) := by
  refine ⟨?_, ?_, ?_⟩
  · by_cases h1 : s_last - s_first < 1
    · have ht : simd_search_trace f first last g s_first s_last p true = [] := by
        rw [simd_search_trace, if_pos h1]
      rw [ht]
      rfl
    · by_cases h2 : last - first < s_last - s_first
      · have ht : simd_search_trace f first last g s_first s_last p true = [] := by
          rw [simd_search_trace, if_neg h1, if_pos h2]
        rw [ht]
        rfl
      · have ht : simd_search_trace f first last g s_first s_last p true =
            search_loop_trace f g s_first s_last p true
              ((last - first) - (s_last - s_first) + 1) first := by
          rw [simd_search_trace, if_neg h1, if_neg h2]
        rw [ht]
        exact search_loop_trace_shape f g s_first s_last p true _ first
  · intro hne
    by_cases h1 : s_last - s_first < 1
    · rw [simd_search, if_pos h1] at hne
      exact absurd rfl hne
    · by_cases h2 : last - first < s_last - s_first
      · rw [simd_search, if_neg h1, if_pos h2] at hne
        exact absurd rfl hne
      · have hr : simd_search f first last g s_first s_last p true =
            search_loop f g s_first s_last p true
              ((last - first) - (s_last - s_first) + 1) first last := by
          rw [simd_search, if_neg h1, if_neg h2]
        by_cases hex : ∃ k, k < (last - first) - (s_last - s_first) + 1 ∧
            search_window_match g s_first s_last f (first + k) p = true
        · obtain ⟨k0, hk0, hP0⟩ := hex
          have hfind : ∃ k,
              search_window_match g s_first s_last f (first + k) p = true :=
            ⟨k0, hP0⟩
          have hksle : Nat.find hfind ≤ k0 := Nat.find_min' hfind hP0
          have hPks : search_window_match g s_first s_last f
              (first + Nat.find hfind) p = true := Nat.find_spec hfind
          have hmin : ∀ e, e < Nat.find hfind →
              search_window_match g s_first s_last f (first + e) p = false := by
            intro e he
            exact Bool.eq_false_iff.mpr (Nat.find_min hfind he)
          have hloop := search_loop_true_found f g s_first s_last p
            ((last - first) - (s_last - s_first) + 1) first last
            (Nat.find hfind) (by omega) hPks hmin
          rw [hr, hloop]
          refine ⟨by omega, hPks, ?_⟩
          intro j hj1 hj2
          have := hmin (j - first) (by omega)
          rwa [Nat.add_sub_cancel' hj1] at this
        · have hnone : ∀ k, k < (last - first) - (s_last - s_first) + 1 →
              search_window_match g s_first s_last f (first + k) p = false := by
            intro k hk
            exact Bool.eq_false_iff.mpr fun hT => hex ⟨k, hk, hT⟩
          rw [hr, search_loop_none f g s_first s_last p true _ first last hnone]
            at hne
          exact absurd rfl hne
  · intro hn2 hn21 j hj1 hj2 hMj
    have h1 : ¬ (s_last - s_first < 1) := by omega
    have h2 : ¬ (last - first < s_last - s_first) := by omega
    have hr : simd_search f first last g s_first s_last p true =
        search_loop f g s_first s_last p true
          ((last - first) - (s_last - s_first) + 1) first last := by
      rw [simd_search, if_neg h1, if_neg h2]
    have hfind : ∃ k,
        search_window_match g s_first s_last f (first + k) p = true :=
      ⟨j - first, by rwa [Nat.add_sub_cancel' hj1]⟩
    have hksle : Nat.find hfind ≤ j - first :=
      Nat.find_min' hfind (by rwa [Nat.add_sub_cancel' hj1])
    have hloop := search_loop_true_found f g s_first s_last p
      ((last - first) - (s_last - s_first) + 1) first last
      (Nat.find hfind) (by omega) (Nat.find_spec hfind)
      (fun e he => Bool.eq_false_iff.mpr (Nat.find_min hfind he))
    rw [hr, hloop]
    omega

/-- Witness for the amended C8: on `[1,2,3,4,5]` / `[3,4]` the window
at position 2 matches, so the `first_occurrence` search does not
return `last`. -/
theorem c8_amended_search_forward_leftmost_witness :
    simd_search wh 0 5 wn 0 2 (fun a b => a == b) true ≠ 5 :=
  (c8_amended_search_forward_leftmost Nat wh 0 5 wn 0 2
    (fun a b => a == b)).2.2 (by decide) (by decide) 2 (by decide) (by decide)
    (by decide)

/-- **C10**: `simd_search` returns `last` when the needle is empty or
longer than the haystack; with `first_occurrence = false` it returns
the start of the *rightmost* occurrence: the window at the result
matches, no later valid window matches, and every matching valid
window start is `≤` the result (so with several occurrences the last
one is returned).  A window matches iff the needle elements equal the
window elements pairwise under `p`. -/
theorem c10_search_rightmost (A : Type) (f : Nat → A) (first last : Nat)
    (g : Nat → A) (s_first s_last : Nat) (p : A → A → Bool) (b : Bool) :
    (s_last - s_first < 1 →
      simd_search f first last g s_first s_last p b = last) ∧
    (last - first < s_last - s_first →
      simd_search f first last g s_first s_last p b = last) ∧
    (s_first ≤ s_last → ∀ j,
      search_window_match g s_first s_last f j p = true ↔
        ∀ k, k < s_last - s_first → p (g (s_first + k)) (f (j + k)) = true) ∧
    (simd_search f first last g s_first s_last p false ≠ last →
      search_window_match g s_first s_last f
        (simd_search f first last g s_first s_last p false) p = true ∧
      ∀ j, simd_search f first last g s_first s_last p false < j →
        j ≤ first + ((last - first) - (s_last - s_first)) →
        search_window_match g s_first s_last f j p = false) ∧
    (1 ≤ s_last - s_first → s_last - s_first ≤ last - first →
      ∀ j, first ≤ j → j ≤ first + ((last - first) - (s_last - s_first)) →
        search_window_match g s_first s_last f j p = true →
        simd_search f first last g s_first s_last p false ≠ last ∧
        j ≤ simd_search f first last g s_first s_last p false) := by
  refine ⟨?_, ?_, ?_, ?_, ?_⟩
  · intro h1
    rw [simd_search, if_pos h1]
  · intro h2
    by_cases h1 : s_last - s_first < 1
    · rw [simd_search, if_pos h1]
    · rw [simd_search, if_neg h1, if_pos h2]
  · intro hss j
    exact search_window_match_iff A g s_first s_last f j p hss
  · intro hne
    by_cases h1 : s_last - s_first < 1
    · rw [simd_search, if_pos h1] at hne
      exact absurd rfl hne
    · by_cases h2 : last - first < s_last - s_first
      · rw [simd_search, if_neg h1, if_pos h2] at hne
        exact absurd rfl hne
      · have hr : simd_search f first last g s_first s_last p false =
            search_loop f g s_first s_last p false
              ((last - first) - (s_last - s_first) + 1) first last := by
          rw [simd_search, if_neg h1, if_neg h2]
        by_cases hex : ∃ k, k < (last - first) - (s_last - s_first) + 1 ∧
            search_window_match g s_first s_last f (first + k) p = true
        · obtain ⟨k0, hk0, hP0⟩ := hex
          obtain ⟨k2, b1, b2, b3, b4, b5⟩ := search_loop_false_found f g
            s_first s_last p ((last - first) - (s_last - s_first) + 1)
            first last k0 hk0 hP0
          rw [hr, b4]
          refine ⟨b3, ?_⟩
          intro j hj1 hj2
          have := b5 (j - first) (by omega) (by omega)
          rwa [Nat.add_sub_cancel' (by omega : first ≤ j)] at this
        · have hnone : ∀ k, k < (last - first) - (s_last - s_first) + 1 →
              search_window_match g s_first s_last f (first + k) p = false := by
            intro k hk
            exact Bool.eq_false_iff.mpr fun hT => hex ⟨k, hk, hT⟩
          rw [hr, search_loop_none f g s_first s_last p false _ first last hnone]
            at hne
          exact absurd rfl hne
  · intro hn2 hn21 j hj1 hj2 hMj
    have h1 : ¬ (s_last - s_first < 1) := by omega
    have h2 : ¬ (last - first < s_last - s_first) := by omega
    have hr : simd_search f first last g s_first s_last p false =
        search_loop f g s_first s_last p false
          ((last - first) - (s_last - s_first) + 1) first last := by
      rw [simd_search, if_neg h1, if_neg h2]
    obtain ⟨k2, b1, b2, b3, b4, b5⟩ := search_loop_false_found f g
      s_first s_last p ((last - first) - (s_last - s_first) + 1)
      first last (j - first) (by omega)
      (by rwa [Nat.add_sub_cancel' hj1])
    rw [hr, b4]
    constructor
    · omega
    · omega

/-- Witness for C10: on `[1,2,3,4,5]` / `[3,4]` without
`first_occurrence` the result is not `last` and is at least the
matching position 2. -/
theorem c10_search_rightmost_witness :
    simd_search wh 0 5 wn 0 2 (fun a b => a == b) false ≠ 5 ∧
    2 ≤ simd_search wh 0 5 wn 0 2 (fun a b => a == b) false :=
  (c10_search_rightmost Nat wh 0 5 wn 0 2 (fun a b => a == b) false).2.2.2.2
    (by decide) (by decide) 2 (by decide) (by decide) (by decide)
